import Mathlib

/-
Verification of the per-frame grid engine in src/main.rs (limbo_lightning).

The engine keeps, per cell of a 256 x 256 grid, the fields
  ground, valid : bool
  nearest_ground, nearest_ground_finder : Vec2<i32>
  charge, next_charge : u32
and runs, once per frame, the pipeline
  mutations (write_wall / write_charge)
  -> propegate_nearest -> update_valid -> discharge -> copy_charge.

Modelling choices:
* Cells are pairs of integers; all per-cell fields are total functions on
  Int x Int.  Kernels are dispatched over the in-bounds cells only, so the
  step functions update exactly the in-bounds cells.
* GPU kernels are modelled synchronously: every cell computes from the state
  as it was at the start of the dispatch.  Within discharge, the atomic
  adds and subtractions into next_charge commute, so the synchronous sum
  (inflow minus own subtraction, in Z / 2^32) is exactly the final buffer
  content of the dispatch.
* The adjacency helper on_adjacent comes from the external sefirot_grid
  crate; it is modelled as the 4-connected in-bounds neighbors in the fixed
  order west, east, south, north.  All concrete scenarios below are built so
  that their outcome does not depend on this enumeration order.
* u32 arithmetic on next_charge is modelled exactly, as arithmetic
  modulo 2^32 (fetch_sub 1 adds 2^32 - 1).
* Buffers start zeroed, matching the documented lifecycle; the startup
  graph (init_nearest_ground then update_valid) is modelled literally.
-/

namespace LimboLightning

abbrev Pos := ℤ × ℤ

def GRID_SIZE : ℤ := 256
def MAX_CHARGE : ℕ := 16

/-- i32::MAX, the initial value of best_dist in propegate_nearest. -/
def i32MAX : ℤ := 2147483647

/-- The u32 wrap-around modulus for the atomic charge arithmetic. -/
def u32Mod : ℕ := 4294967296

/-- Membership in the grid domain [0, GRID_SIZE) x [0, GRID_SIZE). -/
def inBounds (p : Pos) : Prop :=
  0 ≤ p.1 ∧ p.1 < GRID_SIZE ∧ 0 ≤ p.2 ∧ p.2 < GRID_SIZE

instance (p : Pos) : Decidable (inBounds p) :=
  inferInstanceAs (Decidable (0 ≤ p.1 ∧ p.1 < GRID_SIZE ∧ 0 ≤ p.2 ∧ p.2 < GRID_SIZE))

/-- The 4-connected in-bounds neighbors of a cell (on_adjacent of
sefirot_grid), in a fixed enumeration order. -/
def neighbors (p : Pos) : List Pos :=
  [(p.1 - 1, p.2), (p.1 + 1, p.2), (p.1, p.2 - 1), (p.1, p.2 + 1)].filter
    fun q => decide (inBounds q)

/-- The per-cell fields of the engine.  valid and ground are separate
buffers in the source (both happen to carry the binding label "ground"). -/
structure State where
  ground : Pos → Bool
  valid : Pos → Bool
  nearest_ground : Pos → Pos
  nearest_ground_finder : Pos → Pos
  charge : Pos → ℕ
  next_charge : Pos → ℕ

/-- delta.x * delta.x + delta.y * delta.y for delta = a - b, the squared
Euclidean length used by propegate_nearest. -/
def sqd (a b : Pos) : ℤ :=
  (a.1 - b.1) * (a.1 - b.1) + (a.2 - b.2) * (a.2 - b.2)

/-- The candidate distance computed inside the on_adjacent loop of
propegate_nearest for a neighbor n: the squared distance from n to its
recorded nearest ground, plus one. -/
def nbrCand (s : State) (n : Pos) : ℤ :=
  sqd (s.nearest_ground n) n + 1

/-- The distance value of a cell itself, as computed in the self branch of
propegate_nearest: the squared distance from the cell to its recorded
nearest ground. -/
def cellDist (s : State) (p : Pos) : ℤ :=
  sqd (s.nearest_ground p) p

/-- The on_adjacent loop of propegate_nearest: fold the neighbor list over
the accumulator (best_dist, best_ground, best_ground_finder). -/
def propFold (s : State) : List Pos → ℤ × Pos × Pos → ℤ × Pos × Pos
  | [], acc => acc
  | n :: rest, acc =>
      propFold s rest
        (if s.valid n = true ∧ nbrCand s n < acc.1
         then (nbrCand s n, s.nearest_ground n, n)
         else acc)

/-- One cell of the propegate_nearest kernel: returns the new
(nearest_ground, nearest_ground_finder) pair of the cell. -/
def propegateCell (s : State) (p : Pos) : Pos × Pos :=
  let a := propFold s (neighbors p) (i32MAX, p, p)
  let a2 :=
    if s.valid p = true ∧ cellDist s p < a.1
    then (cellDist s p, s.nearest_ground p, s.nearest_ground_finder p)
    else a
  if a2.1 = i32MAX then (s.nearest_ground p, s.nearest_ground_finder p)
  else (a2.2.1, a2.2.2)

/-- The propegate_nearest dispatch over the whole grid. -/
def propegate_nearest (s : State) : State :=
  { s with
    nearest_ground := fun p =>
      if inBounds p then (propegateCell s p).1 else s.nearest_ground p
    nearest_ground_finder := fun p =>
      if inBounds p then (propegateCell s p).2 else s.nearest_ground_finder p }

/-- The update_valid dispatch: valid := ground at the recorded nearest
ground coordinate. -/
def update_valid (s : State) : State :=
  { s with
    valid := fun p =>
      if inBounds p then s.ground (s.nearest_ground p) else s.valid p }

/-- The init_nearest_ground dispatch run once at startup. -/
def init_nearest_ground (s : State) : State :=
  { s with
    nearest_ground := fun p => if inBounds p then p else s.nearest_ground p
    nearest_ground_finder := fun p =>
      if inBounds p then p else s.nearest_ground_finder p }

/-- The in-bounds cells as a finite set (the dispatch domain). -/
def cells : Finset Pos :=
  Finset.Icc (0 : ℤ) (GRID_SIZE - 1) ×ˢ Finset.Icc (0 : ℤ) (GRID_SIZE - 1)

/-- Cell d performs, during the discharge dispatch, a fetch_add into the
staged charge of cell p: d is charged, valid, not ground, its forwarding
pointer differs from itself, equals p, and the pre-frame charge of p is
below capacity. -/
def sendsTo (s : State) (d p : Pos) : Prop :=
  s.charge d ≠ 0 ∧ s.valid d = true ∧ s.ground d = false ∧
    s.nearest_ground_finder d ≠ d ∧ s.nearest_ground_finder d = p ∧
    s.charge p < MAX_CHARGE

instance (s : State) (d p : Pos) : Decidable (sendsTo s d p) :=
  inferInstanceAs
    (Decidable (s.charge d ≠ 0 ∧ s.valid d = true ∧ s.ground d = false ∧
      s.nearest_ground_finder d ≠ d ∧ s.nearest_ground_finder d = p ∧
      s.charge p < MAX_CHARGE))

/-- The number of units added into the staged charge of p during one
discharge dispatch (one per sending cell in the grid). -/
def inflow (s : State) (p : Pos) : ℕ :=
  (cells.filter fun d => sendsTo s d p).card

/-- Cell p performs a fetch_sub on its own staged charge during the
discharge dispatch: either it is a charged valid ground cell (absorption)
or it successfully forwards a unit. -/
def dischargeSends (s : State) (p : Pos) : Prop :=
  s.charge p ≠ 0 ∧ s.valid p = true ∧
    (s.ground p = true ∨
      (s.nearest_ground_finder p ≠ p ∧
        s.charge (s.nearest_ground_finder p) < MAX_CHARGE))

instance (s : State) (p : Pos) : Decidable (dischargeSends s p) :=
  inferInstanceAs
    (Decidable (s.charge p ≠ 0 ∧ s.valid p = true ∧
      (s.ground p = true ∨
        (s.nearest_ground_finder p ≠ p ∧
          s.charge (s.nearest_ground_finder p) < MAX_CHARGE))))

/-- The staged (next_charge) value of cell p after the discharge dispatch:
the commuting atomic u32 adds and subtractions applied to the buffer. -/
def stagedCharge (s : State) (p : Pos) : ℕ :=
  (s.next_charge p + inflow s p +
    (u32Mod - (if dischargeSends s p then 1 else 0))) % u32Mod

/-- The discharge dispatch over the whole grid. -/
def discharge (s : State) : State :=
  { s with
    next_charge := fun p =>
      if inBounds p then stagedCharge s p else s.next_charge p }

/-- The copy_charge dispatch: commit staging into the authoritative
charge field. -/
def copy_charge (s : State) : State :=
  { s with
    charge := fun p => if inBounds p then s.next_charge p else s.charge p }

/-- The two mutation commands of the engine. -/
inductive Event where
  | paint (pos : Pos)
  | inject (pos : Pos) (amount : ℕ)

/-- write_wall and write_charge: a dispatch in which only the in-bounds
cell equal to the target position writes. -/
def applyEvent (s : State) : Event → State
  | .paint pos =>
      { s with
        ground := fun p => if p = pos ∧ inBounds p then true else s.ground p }
  | .inject pos c =>
      { s with
        charge := fun p => if p = pos ∧ inBounds p then c else s.charge p
        next_charge := fun p =>
          if p = pos ∧ inBounds p then c else s.next_charge p }

def applyEvents (evs : List Event) (s : State) : State :=
  evs.foldl applyEvent s

/-- One full frame: mutations, then the chained dispatches
propegate_nearest, update_valid, discharge, copy_charge. -/
def frame (evs : List Event) (s : State) : State :=
  copy_charge (discharge (update_valid (propegate_nearest (applyEvents evs s))))

/-- All buffers zeroed (the documented initial buffer contents). -/
def zeroState : State :=
  ⟨fun _ => false, fun _ => false, fun p => p, fun p => p, fun _ => 0, fun _ => 0⟩

/-- The state after the startup graph: init_nearest_ground chained with
update_valid, on zeroed buffers. -/
def startState : State :=
  update_valid (init_nearest_ground zeroState)

/-- The spec requires inject amounts to be caller-clamped to
[0, MAX_CHARGE]; paint has no argument constraint. -/
def EventOK : Event → Prop
  | .paint _ => True
  | .inject _ a => a ≤ MAX_CHARGE

instance : DecidablePred EventOK := fun e => by
  cases e with
  | paint pos => exact isTrue trivial
  | inject pos a => exact inferInstanceAs (Decidable (a ≤ MAX_CHARGE))

/-- States reachable from startup by whole frames whose injected amounts
are caller-clamped. -/
inductive Reachable : State → Prop
  | start : Reachable startState
  | step {s : State} {evs : List Event} :
      Reachable s → (∀ e ∈ evs, EventOK e) → Reachable (frame evs s)

/-- The run of the engine on a schedule of per-frame event lists. -/
def run (evs : ℕ → List Event) : ℕ → State
  | 0 => startState
  | n + 1 => frame (evs n) (run evs n)

/-- 4-connected graph distance at most k, inside the grid. -/
def distLEb (g c : Pos) : ℕ → Bool
  | 0 => decide (c = g)
  | k + 1 => decide (c = g) || (neighbors c).any fun n => distLEb g n k

/-- Invariant: nearest-ground pointers of in-bounds cells stay in bounds. -/
def GoodNg (s : State) : Prop :=
  ∀ p, inBounds p → inBounds (s.nearest_ground p)

/-- Invariant: a valid cell really records a ground cell as its nearest
ground. -/
def GoodValid (s : State) : Prop :=
  ∀ p, inBounds p → s.valid p = true → s.ground (s.nearest_ground p) = true

/-- Invariant: all charge buffers are zero. -/
def AllZero (s : State) : Prop :=
  ∀ p, s.charge p = 0 ∧ s.next_charge p = 0

/-- The reachable-state charge invariant: the committed charge is bounded
by MAX_CHARGE + 3, staging agrees with the committed field at frame
boundaries, and forwarding pointers are the cell itself or a neighbor. -/
def ChargeInv (s : State) : Prop :=
  ∀ p, inBounds p →
    s.charge p ≤ MAX_CHARGE + 3 ∧ s.next_charge p = s.charge p ∧
      (s.nearest_ground_finder p = p ∨ s.nearest_ground_finder p ∈ neighbors p)

/-- Event schedule: paint a single source at frame 0, no further edits. -/
def wEvs (g : Pos) : ℕ → List Event := fun n =>
  if n = 0 then [Event.paint g] else []

/-- Event schedule of the contention run: paint a source at the origin at
frame 0, then at frame 3 inject charge 15 at (1,1), charge 1 at the two
cells (2,1) and (1,2) whose forwarding pointers both resolve to (1,1) in
that same frame, and charge 16 at (1,0) and (0,1) so that (1,1) cannot
discharge, whichever of the two its own forwarding pointer selects. -/
def cexEvs : ℕ → List Event := fun n =>
  if n = 0 then [Event.paint (0, 0)]
  else if n = 3 then
    [Event.inject (1, 1) 15, Event.inject (2, 1) 1, Event.inject (1, 2) 1,
     Event.inject (1, 0) 16, Event.inject (0, 1) 16]
  else []

/-- The state at the end of frame 3 of the contention run. -/
def cexState : State := run cexEvs 4

/-- Closed-form companion of the contention run just before the passes of
frame 3: ground only at the origin, the wavefront of radius 2 recorded in
valid and nearest_ground, the forwarding field taken verbatim (it is never
read at the cells of interest). -/
def cexMid : State :=
  ⟨fun p => decide (p = (0, 0)),
   fun p => decide (inBounds p) && distLEb (0, 0) p 2,
   fun p => if inBounds p ∧ distLEb (0, 0) p 2 = true then (0, 0) else p,
   (applyEvents (cexEvs 3) (run cexEvs 3)).nearest_ground_finder,
   fun _ => 0, fun _ => 0⟩

/-- The state of the contention run after the mutation, propagation and
validity dispatches of frame 3, read by that frame's discharge. -/
def cexStar : State :=
  update_valid (propegate_nearest (applyEvents (cexEvs 3) (run cexEvs 3)))

/-- Witness state for the contention theorem: two charged valid cells
forward into (1,1), which holds charge 15. -/
def stC2 : State :=
  ⟨fun _ => false,
   fun p => decide (p = (0, 1) ∨ p = (1, 0)),
   fun p => p,
   fun p => if p = (0, 1) ∨ p = (1, 0) then (1, 1) else p,
   fun p => if p = (0, 1) ∨ p = (1, 0) then 1 else if p = (1, 1) then 15 else 0,
   fun p => if p = (0, 1) ∨ p = (1, 0) then 1 else if p = (1, 1) then 15 else 0⟩

/-- A state in which the ground cell (0,0) has a nearest-ground pointer
recording the other ground cell (0,2), reached through (0,1). -/
def stC5 : State :=
  ⟨fun p => decide (p = (0, 0) ∨ p = (0, 2)),
   fun p => decide (p = (0, 0) ∨ p = (0, 1) ∨ p = (0, 2)),
   fun p => if p = (0, 0) ∨ p = (0, 1) then (0, 2) else p,
   fun p => p,
   fun _ => 0,
   fun _ => 0⟩

/-- A fresh single-source state: the ground cell (0,0) records itself. -/
def stC5w : State :=
  ⟨fun p => decide (p = (0, 0)),
   fun p => decide (p = (0, 0)),
   fun p => p,
   fun p => p,
   fun _ => 0,
   fun _ => 0⟩

/-- A state with a tie: cell (0,1) has its own distance 2 to its recorded
nearest ground (1,2), and its valid neighbor (1,1) offers a candidate of
the same value 2; the previous forwarding pointer of (0,1) is (0,2). -/
def stC7 : State :=
  ⟨fun p => decide (p = (1, 2)),
   fun p => decide (p = (0, 1) ∨ p = (1, 1) ∨ p = (1, 2)),
   fun p => if p = (0, 1) ∨ p = (1, 1) then (1, 2) else p,
   fun p => if p = (0, 1) then (0, 2) else p,
   fun _ => 0,
   fun _ => 0⟩

/-- Witness state for the capacity scenario: the valid non-ground cell
(1,1) holds charge 3 and forwards to its neighbor (1,2), which is full. -/
def stC8 : State :=
  ⟨fun _ => false,
   fun p => decide (p = (1, 1)),
   fun p => p,
   fun p => if p = (1, 1) then (1, 2) else p,
   fun p => if p = (1, 1) then 3 else if p = (1, 2) then 16 else 0,
   fun p => if p = (1, 1) then 3 else if p = (1, 2) then 16 else 0⟩

/-- Witness state for the absorption theorem: the valid ground cell (2,2)
holds charge 5. -/
def stC10 : State :=
  ⟨fun p => decide (p = (2, 2)),
   fun p => decide (p = (2, 2)),
   fun p => p,
   fun p => p,
   fun p => if p = (2, 2) then 5 else 0,
   fun p => if p = (2, 2) then 5 else 0⟩

/-! ### Basic lemmas about the grid -/

theorem mem_neighbors {p q : Pos} :
    q ∈ neighbors p ↔
      (q = (p.1 - 1, p.2) ∨ q = (p.1 + 1, p.2) ∨
        q = (p.1, p.2 - 1) ∨ q = (p.1, p.2 + 1)) ∧ inBounds q := by
  simp [neighbors, List.mem_filter]

theorem inBounds_of_mem_neighbors {p q : Pos} (h : q ∈ neighbors p) :
    inBounds q := (mem_neighbors.1 h).2

theorem self_not_mem_neighbors (p : Pos) : p ∉ neighbors p := by
  intro h
  rcases (mem_neighbors.1 h).1 with h' | h' | h' | h' <;>
    (rw [Prod.ext_iff] at h'; omega)

theorem neighbors_symm {p q : Pos} (hp : inBounds p) (hq : q ∈ neighbors p) :
    p ∈ neighbors q := by
  rcases mem_neighbors.1 hq with ⟨h, hb⟩
  refine mem_neighbors.2 ⟨?_, hp⟩
  simp only [Prod.ext_iff] at h ⊢
  omega

theorem length_neighbors_le (p : Pos) : (neighbors p).length ≤ 4 := by
  have := List.length_filter_le
    (fun q => decide (inBounds q))
    [(p.1 - 1, p.2), (p.1 + 1, p.2), (p.1, p.2 - 1), (p.1, p.2 + 1)]
  simpa [neighbors] using this

theorem mem_cells {p : Pos} : p ∈ cells ↔ inBounds p := by
  unfold cells inBounds GRID_SIZE
  rw [Finset.mem_product, Finset.mem_Icc, Finset.mem_Icc]
  omega

theorem sqd_nonneg (a b : Pos) : 0 ≤ sqd a b :=
  add_nonneg (mul_self_nonneg _) (mul_self_nonneg _)

theorem sqd_add_one_lt (a b : Pos) (ha : inBounds a) (hb : inBounds b) :
    sqd a b + 1 < i32MAX := by
  unfold inBounds GRID_SIZE at ha hb
  unfold sqd i32MAX
  nlinarith [ha.1, ha.2.1, ha.2.2.1, ha.2.2.2, hb.1, hb.2.1, hb.2.2.1, hb.2.2.2]

theorem sqd_lt (a b : Pos) (ha : inBounds a) (hb : inBounds b) :
    sqd a b < i32MAX := by
  have := sqd_add_one_lt a b ha hb
  omega

theorem sqd_self (p : Pos) : sqd p p = 0 := by
  unfold sqd
  ring

/-! ### Lemmas about the on_adjacent fold of propegate_nearest -/

theorem propFold_nil (s : State) (acc : ℤ × Pos × Pos) :
    propFold s [] acc = acc := rfl

theorem propFold_cons (s : State) (n : Pos) (l : List Pos) (acc : ℤ × Pos × Pos) :
    propFold s (n :: l) acc =
      propFold s l
        (if s.valid n = true ∧ nbrCand s n < acc.1
         then (nbrCand s n, s.nearest_ground n, n)
         else acc) := rfl

theorem propFold_of_no_valid {s : State} {l : List Pos} (acc : ℤ × Pos × Pos)
    (h : ∀ n ∈ l, s.valid n = false) : propFold s l acc = acc := by
  induction l generalizing acc with
  | nil => rfl
  | cons n l ih =>
      rw [propFold_cons, if_neg, ih acc]
      · exact fun m hm => h m (List.mem_cons_of_mem n hm)
      · rintro ⟨hv, -⟩
        rw [h n (List.mem_cons_self n l)] at hv
        exact Bool.false_ne_true hv

theorem propFold_fst_le {s : State} (l : List Pos) (acc : ℤ × Pos × Pos) :
    (propFold s l acc).1 ≤ acc.1 := by
  induction l generalizing acc with
  | nil => exact le_refl _
  | cons n l ih =>
      rw [propFold_cons]
      split_ifs with h
      · exact le_trans (ih _) (le_of_lt h.2)
      · exact ih acc

theorem propFold_fst_le_of_mem {s : State} {l : List Pos} {n : Pos}
    (acc : ℤ × Pos × Pos) (hn : n ∈ l) (hv : s.valid n = true) :
    (propFold s l acc).1 ≤ nbrCand s n := by
  induction l generalizing acc with
  | nil => cases hn
  | cons m l ih =>
      rw [propFold_cons]
      rcases List.mem_cons.1 hn with rfl | hmem
      · split_ifs with h
        · exact propFold_fst_le l _
        · have hle : acc.1 ≤ nbrCand s n := by
            by_contra hlt
            exact h ⟨hv, lt_of_not_le hlt⟩
          exact le_trans (propFold_fst_le l acc) hle
      · exact ih _ hmem

theorem propFold_cases {s : State} (l : List Pos) (acc : ℤ × Pos × Pos) :
    propFold s l acc = acc ∨
      ∃ n ∈ l, s.valid n = true ∧
        propFold s l acc = (nbrCand s n, s.nearest_ground n, n) := by
  induction l generalizing acc with
  | nil => exact Or.inl rfl
  | cons m l ih =>
      rw [propFold_cons]
      split_ifs with h
      · rcases ih (nbrCand s m, s.nearest_ground m, m) with he | ⟨n, hn, hv, he⟩
        · exact Or.inr ⟨m, List.mem_cons_self m l, h.1, he⟩
        · exact Or.inr ⟨n, List.mem_cons_of_mem m hn, hv, he⟩
      · rcases ih acc with he | ⟨n, hn, hv, he⟩
        · exact Or.inl he
        · exact Or.inr ⟨n, List.mem_cons_of_mem m hn, hv, he⟩

/-! ### Behaviour of one cell of propegate_nearest -/

theorem propegateCell_of_invalid {s : State} {p : Pos}
    (hall : ∀ n ∈ neighbors p, s.valid n = false) (hp : s.valid p = false) :
    propegateCell s p = (s.nearest_ground p, s.nearest_ground_finder p) := by
  have hv : ¬ s.valid p = true := by
    rw [hp]
    exact Bool.false_ne_true
  unfold propegateCell
  rw [propFold_of_no_valid _ hall]
  dsimp only
  split_ifs with h1 h2 h3
  · exact absurd h1.1 hv
  · exact absurd h1.1 hv
  · rfl
  · exact absurd rfl h3

theorem propegateCell_keep {s : State} {p : Pos}
    (hv : s.valid p = true) (hB : cellDist s p < i32MAX)
    (hstrict : ∀ n ∈ neighbors p, s.valid n = true → cellDist s p < nbrCand s n) :
    propegateCell s p = (s.nearest_ground p, s.nearest_ground_finder p) := by
  unfold propegateCell
  rcases propFold_cases (s := s) (neighbors p) (i32MAX, p, p) with he | ⟨n, hn, hvn, he⟩
  · rw [he]
    dsimp only
    split_ifs with h1 h2
    · rfl
    · rfl
    · exact absurd ⟨hv, hB⟩ h1
    · exact absurd ⟨hv, hB⟩ h1
  · rw [he]
    dsimp only
    split_ifs with h1 h2
    · rfl
    · rfl
    · rfl
    · exact absurd ⟨hv, hstrict n hn hvn⟩ h1

theorem propegateCell_fst_of_valid {s : State} {p : Pos}
    (hv : s.valid p = true) (hB : cellDist s p < i32MAX) :
    (propegateCell s p).1 = s.nearest_ground p ∨
      ∃ n ∈ neighbors p, s.valid n = true ∧
        (propegateCell s p).1 = s.nearest_ground n := by
  unfold propegateCell
  rcases propFold_cases (s := s) (neighbors p) (i32MAX, p, p) with he | ⟨n, hn, hvn, he⟩
  · rw [he]
    dsimp only
    split_ifs with h1 h2
    · exact Or.inl rfl
    · exact Or.inl rfl
    · exact absurd ⟨hv, hB⟩ h1
    · exact absurd ⟨hv, hB⟩ h1
  · rw [he]
    dsimp only
    split_ifs with h1 h2 h3
    · exact Or.inl rfl
    · exact Or.inl rfl
    · exact Or.inl rfl
    · exact Or.inr ⟨n, hn, hvn, rfl⟩

theorem propegateCell_mem (s : State) (p : Pos) :
    ((propegateCell s p).1 = s.nearest_ground p ∨
      ∃ n ∈ neighbors p, (propegateCell s p).1 = s.nearest_ground n) ∧
    ((propegateCell s p).2 = s.nearest_ground_finder p ∨
      (propegateCell s p).2 ∈ neighbors p) := by
  unfold propegateCell
  rcases propFold_cases (s := s) (neighbors p) (i32MAX, p, p) with he | ⟨n, hn, hvn, he⟩
  · rw [he]
    dsimp only
    split_ifs with h1 h2 h3
    · exact ⟨Or.inl rfl, Or.inl rfl⟩
    · exact ⟨Or.inl rfl, Or.inl rfl⟩
    · exact ⟨Or.inl rfl, Or.inl rfl⟩
    · exact absurd rfl h3
  · rw [he]
    dsimp only
    split_ifs with h1 h2 h3
    · exact ⟨Or.inl rfl, Or.inl rfl⟩
    · exact ⟨Or.inl rfl, Or.inl rfl⟩
    · exact ⟨Or.inl rfl, Or.inl rfl⟩
    · exact ⟨Or.inr ⟨n, hn, rfl⟩, Or.inr hn⟩

theorem propegateCell_fst_all {s : State} {p g : Pos}
    (hp : inBounds p) (hg : inBounds g)
    (hgn : ∀ n ∈ neighbors p, s.valid n = true → s.nearest_ground n = g)
    (hgp : s.valid p = true → s.nearest_ground p = g)
    (hex : (∃ n ∈ neighbors p, s.valid n = true) ∨ s.valid p = true) :
    (propegateCell s p).1 = g := by
  unfold propegateCell
  rcases propFold_cases (s := s) (neighbors p) (i32MAX, p, p) with he | ⟨n, hn, hvn, he⟩
  · have hvp : s.valid p = true := by
      rcases hex with ⟨n, hn, hvn⟩ | hvp
      · exfalso
        have hle := propFold_fst_le_of_mem (s := s) (i32MAX, p, p) hn hvn
        rw [he] at hle
        dsimp only at hle
        have hc : nbrCand s n < i32MAX := by
          unfold nbrCand
          rw [hgn n hn hvn]
          exact sqd_add_one_lt g n hg (inBounds_of_mem_neighbors hn)
        exact absurd hle (not_le.2 hc)
      · exact hvp
    have hcd : cellDist s p < i32MAX := by
      unfold cellDist
      rw [hgp hvp]
      exact sqd_lt g p hg hp
    rw [he]
    dsimp only
    split_ifs with h1 h2
    · exact absurd h2 (ne_of_lt hcd)
    · exact hgp hvp
    · exact absurd ⟨hvp, hcd⟩ h1
    · exact absurd ⟨hvp, hcd⟩ h1
  · have hng := hgn n hn hvn
    have hcn : nbrCand s n < i32MAX := by
      unfold nbrCand
      rw [hng]
      exact sqd_add_one_lt g n hg (inBounds_of_mem_neighbors hn)
    rw [he]
    dsimp only
    split_ifs with h1 h2 h3
    · exact absurd h2 (ne_of_lt (lt_trans h1.2 hcn))
    · exact hgp h1.1
    · exact absurd h3 (ne_of_lt hcn)
    · exact hng

/-! ### Field plumbing: which dispatch touches which buffer -/

@[simp] theorem copy_charge_ground (s : State) : (copy_charge s).ground = s.ground := rfl
@[simp] theorem copy_charge_valid (s : State) : (copy_charge s).valid = s.valid := rfl
@[simp] theorem copy_charge_ng (s : State) :
    (copy_charge s).nearest_ground = s.nearest_ground := rfl
@[simp] theorem copy_charge_ngf (s : State) :
    (copy_charge s).nearest_ground_finder = s.nearest_ground_finder := rfl
@[simp] theorem copy_charge_next (s : State) :
    (copy_charge s).next_charge = s.next_charge := rfl
@[simp] theorem copy_charge_charge (s : State) (p : Pos) :
    (copy_charge s).charge p =
      if inBounds p then s.next_charge p else s.charge p := rfl

@[simp] theorem discharge_ground (s : State) : (discharge s).ground = s.ground := rfl
@[simp] theorem discharge_valid (s : State) : (discharge s).valid = s.valid := rfl
@[simp] theorem discharge_ng (s : State) :
    (discharge s).nearest_ground = s.nearest_ground := rfl
@[simp] theorem discharge_ngf (s : State) :
    (discharge s).nearest_ground_finder = s.nearest_ground_finder := rfl
@[simp] theorem discharge_charge (s : State) : (discharge s).charge = s.charge := rfl
@[simp] theorem discharge_next (s : State) (p : Pos) :
    (discharge s).next_charge p =
      if inBounds p then stagedCharge s p else s.next_charge p := rfl

@[simp] theorem update_valid_ground (s : State) : (update_valid s).ground = s.ground := rfl
@[simp] theorem update_valid_ng (s : State) :
    (update_valid s).nearest_ground = s.nearest_ground := rfl
@[simp] theorem update_valid_ngf (s : State) :
    (update_valid s).nearest_ground_finder = s.nearest_ground_finder := rfl
@[simp] theorem update_valid_charge (s : State) : (update_valid s).charge = s.charge := rfl
@[simp] theorem update_valid_next (s : State) :
    (update_valid s).next_charge = s.next_charge := rfl
@[simp] theorem update_valid_valid (s : State) (p : Pos) :
    (update_valid s).valid p =
      if inBounds p then s.ground (s.nearest_ground p) else s.valid p := rfl

@[simp] theorem propegate_ground (s : State) : (propegate_nearest s).ground = s.ground := rfl
@[simp] theorem propegate_valid (s : State) : (propegate_nearest s).valid = s.valid := rfl
@[simp] theorem propegate_charge (s : State) : (propegate_nearest s).charge = s.charge := rfl
@[simp] theorem propegate_next (s : State) :
    (propegate_nearest s).next_charge = s.next_charge := rfl
@[simp] theorem propegate_ng (s : State) (p : Pos) :
    (propegate_nearest s).nearest_ground p =
      if inBounds p then (propegateCell s p).1 else s.nearest_ground p := rfl
@[simp] theorem propegate_ngf (s : State) (p : Pos) :
    (propegate_nearest s).nearest_ground_finder p =
      if inBounds p then (propegateCell s p).2 else s.nearest_ground_finder p := rfl

@[simp] theorem applyEvent_valid (s : State) (e : Event) :
    (applyEvent s e).valid = s.valid := by cases e <;> rfl
@[simp] theorem applyEvent_ng (s : State) (e : Event) :
    (applyEvent s e).nearest_ground = s.nearest_ground := by cases e <;> rfl
@[simp] theorem applyEvent_ngf (s : State) (e : Event) :
    (applyEvent s e).nearest_ground_finder = s.nearest_ground_finder := by
  cases e <;> rfl

@[simp] theorem applyEvents_nil (s : State) : applyEvents [] s = s := rfl
theorem applyEvents_cons (e : Event) (evs : List Event) (s : State) :
    applyEvents (e :: evs) s = applyEvents evs (applyEvent s e) := rfl

@[simp] theorem applyEvents_valid (evs : List Event) (s : State) :
    (applyEvents evs s).valid = s.valid := by
  induction evs generalizing s with
  | nil => rfl
  | cons e evs ih => rw [applyEvents_cons, ih, applyEvent_valid]

@[simp] theorem applyEvents_ng (evs : List Event) (s : State) :
    (applyEvents evs s).nearest_ground = s.nearest_ground := by
  induction evs generalizing s with
  | nil => rfl
  | cons e evs ih => rw [applyEvents_cons, ih, applyEvent_ng]

@[simp] theorem applyEvents_ngf (evs : List Event) (s : State) :
    (applyEvents evs s).nearest_ground_finder = s.nearest_ground_finder := by
  induction evs generalizing s with
  | nil => rfl
  | cons e evs ih => rw [applyEvents_cons, ih, applyEvent_ngf]

/-! ### Frame projections -/

theorem frame_ground (evs : List Event) (s : State) :
    (frame evs s).ground = (applyEvents evs s).ground := rfl

theorem frame_ng {p : Pos} (evs : List Event) (s : State) (hp : inBounds p) :
    (frame evs s).nearest_ground p = (propegateCell (applyEvents evs s) p).1 := by
  show (propegate_nearest (applyEvents evs s)).nearest_ground p = _
  rw [propegate_ng, if_pos hp]

theorem frame_ngf {p : Pos} (evs : List Event) (s : State) (hp : inBounds p) :
    (frame evs s).nearest_ground_finder p =
      (propegateCell (applyEvents evs s) p).2 := by
  show (propegate_nearest (applyEvents evs s)).nearest_ground_finder p = _
  rw [propegate_ngf, if_pos hp]

theorem frame_valid {p : Pos} (evs : List Event) (s : State) (hp : inBounds p) :
    (frame evs s).valid p =
      (applyEvents evs s).ground ((propegateCell (applyEvents evs s) p).1) := by
  show (update_valid (propegate_nearest (applyEvents evs s))).valid p = _
  rw [update_valid_valid, if_pos hp, propegate_ground, propegate_ng, if_pos hp]

theorem frame_charge {p : Pos} (evs : List Event) (s : State) (hp : inBounds p) :
    (frame evs s).charge p =
      stagedCharge (update_valid (propegate_nearest (applyEvents evs s))) p := by
  show (copy_charge (discharge _)).charge p = _
  rw [copy_charge_charge, if_pos hp, discharge_next, if_pos hp]

theorem frame_next {p : Pos} (evs : List Event) (s : State) (hp : inBounds p) :
    (frame evs s).next_charge p =
      stagedCharge (update_valid (propegate_nearest (applyEvents evs s))) p := by
  show (copy_charge (discharge _)).next_charge p = _
  rw [copy_charge_next, discharge_next, if_pos hp]

/-! ### Monotonicity of ground -/

theorem ground_mono_event {s : State} {p : Pos} (e : Event)
    (h : s.ground p = true) : (applyEvent s e).ground p = true := by
  cases e with
  | paint pos =>
      show (if p = pos ∧ inBounds p then true else s.ground p) = true
      split_ifs with hc
      · rfl
      · exact h
  | inject pos c => exact h

theorem ground_mono_events {s : State} {p : Pos} (evs : List Event)
    (h : s.ground p = true) : (applyEvents evs s).ground p = true := by
  induction evs generalizing s with
  | nil => exact h
  | cons e evs ih => exact ih (ground_mono_event e h)

theorem ground_mono_frame {s : State} {p : Pos} (evs : List Event)
    (h : s.ground p = true) : (frame evs s).ground p = true := by
  rw [frame_ground]
  exact ground_mono_events evs h

/-! ### The nearest-ground pointer stays in bounds, and validity certifies
a ground cell at the recorded nearest-ground coordinate -/

theorem goodNg_start : GoodNg startState := by
  intro p hp
  show inBounds ((init_nearest_ground zeroState).nearest_ground p)
  simp only [init_nearest_ground, zeroState]
  rw [if_pos hp]
  exact hp

theorem goodNg_frame {s : State} (evs : List Event) (h : GoodNg s) :
    GoodNg (frame evs s) := by
  intro p hp
  rw [frame_ng evs s hp]
  rcases (propegateCell_mem (applyEvents evs s) p).1 with he | ⟨n, hn, he⟩
  · rw [he, applyEvents_ng]
    exact h p hp
  · rw [he, applyEvents_ng]
    exact h n (inBounds_of_mem_neighbors hn)

theorem goodValid_start : GoodValid startState := by
  intro p hp hv
  exfalso
  have : startState.valid p = false := by
    show (update_valid (init_nearest_ground zeroState)).valid p = false
    rw [update_valid_valid, if_pos hp]
    rfl
  rw [this] at hv
  exact Bool.false_ne_true hv

theorem goodValid_frame (evs : List Event) (s : State) : GoodValid (frame evs s) := by
  intro p hp hv
  rw [frame_valid evs s hp] at hv
  rw [frame_ground, frame_ng evs s hp]
  exact hv

theorem valid_mono_frame {s : State} {p : Pos} (evs : List Event)
    (hNg : GoodNg s) (hGV : GoodValid s) (hp : inBounds p)
    (hv : s.valid p = true) : (frame evs s).valid p = true := by
  have hv1 : (applyEvents evs s).valid p = true := by
    rw [applyEvents_valid]
    exact hv
  have hB : cellDist (applyEvents evs s) p < i32MAX := by
    unfold cellDist
    rw [applyEvents_ng]
    exact sqd_lt _ _ (hNg p hp) hp
  rw [frame_valid evs s hp]
  rcases propegateCell_fst_of_valid hv1 hB with he | ⟨n, hn, hvn, he⟩
  · rw [he, applyEvents_ng]
    exact ground_mono_events evs (hGV p hp hv)
  · rw [he, applyEvents_ng]
    have hvn' : s.valid n = true := by
      rw [applyEvents_valid] at hvn
      exact hvn
    exact ground_mono_events evs (hGV n (inBounds_of_mem_neighbors hn) hvn')

theorem goodNg_run (evs : ℕ → List Event) : ∀ n, GoodNg (run evs n)
  | 0 => goodNg_start
  | n + 1 => goodNg_frame (evs n) (goodNg_run evs n)

theorem goodValid_run (evs : ℕ → List Event) : ∀ n, GoodValid (run evs n)
  | 0 => goodValid_start
  | n + 1 => goodValid_frame (evs n) (run evs n)

/-- C4: for every cell and every pair of frames t ≤ t+k, once ground is
true it stays true, and once valid is true it stays true (no operation of
the engine ever removes a source, so the hypothesis of the claim is
automatic); this holds on every run, for arbitrary event schedules. -/
theorem ground_valid_monotone (evs : ℕ → List Event) (c : Pos) (t t' : ℕ)
    (hle : t ≤ t') (hc : inBounds c) :
    ((run evs t).ground c = true → (run evs t').ground c = true) ∧
    ((run evs t).valid c = true → (run evs t').valid c = true) := by
  induction t', hle using Nat.le_induction with
  | base => exact ⟨id, id⟩
  | succ m hm ih =>
      refine ⟨fun h => ?_, fun h => ?_⟩
      · exact ground_mono_frame (evs m) (ih.1 h)
      · exact valid_mono_frame (evs m) (goodNg_run evs m) (goodValid_run evs m)
          hc (ih.2 h)

/-- Witness for C4 at a concrete schedule, cell and pair of frames. -/
theorem ground_valid_monotone_witness :
    (((run (wEvs (0, 0)) 1).ground (0, 0) = true →
        (run (wEvs (0, 0)) 2).ground (0, 0) = true) ∧
     ((run (wEvs (0, 0)) 1).valid (0, 0) = true →
        (run (wEvs (0, 0)) 2).valid (0, 0) = true)) :=
  ground_valid_monotone (wEvs (0, 0)) (0, 0) 1 2 (by decide) (by decide)

/-! ### Graph distance lemmas -/

theorem distLEb_zero (g c : Pos) : distLEb g c 0 = decide (c = g) := rfl

theorem distLEb_succ (g c : Pos) (k : ℕ) :
    distLEb g c (k + 1) =
      (decide (c = g) || (neighbors c).any fun n => distLEb g n k) := rfl

theorem distLEb_self (g : Pos) : ∀ k, distLEb g g k = true
  | 0 => by simp [distLEb_zero]
  | k + 1 => by simp [distLEb_succ]

theorem distLEb_mono {g c : Pos} : ∀ {k}, distLEb g c k = true →
    distLEb g c (k + 1) = true := by
  intro k
  induction k generalizing c with
  | zero =>
      intro h
      rw [distLEb_zero] at h
      rw [distLEb_succ, h]
      rfl
  | succ k ih =>
      intro h
      rw [distLEb_succ] at h
      rcases Bool.or_eq_true_iff.1 h with h | h
      · rw [distLEb_succ, h]
        rfl
      · rcases List.any_eq_true.1 h with ⟨n, hn, hdn⟩
        rw [distLEb_succ]
        refine Bool.or_eq_true_iff.2 (Or.inr (List.any_eq_true.2 ⟨n, hn, ?_⟩))
        exact ih hdn

/-! ### The start state -/

theorem startState_ground (c : Pos) : startState.ground c = false := rfl

theorem startState_valid (c : Pos) : startState.valid c = false := by
  show (update_valid (init_nearest_ground zeroState)).valid c = false
  rw [update_valid_valid]
  split_ifs <;> rfl

theorem startState_ng (c : Pos) : startState.nearest_ground c = c := by
  show (init_nearest_ground zeroState).nearest_ground c = c
  show (if inBounds c then c else zeroState.nearest_ground c) = c
  split_ifs <;> rfl

theorem startState_ngf (c : Pos) : startState.nearest_ground_finder c = c := by
  show (init_nearest_ground zeroState).nearest_ground_finder c = c
  show (if inBounds c then c else zeroState.nearest_ground_finder c) = c
  split_ifs <;> rfl

theorem startState_charge (c : Pos) : startState.charge c = 0 := rfl

theorem startState_next (c : Pos) : startState.next_charge c = 0 := rfl

/-! ### The single-source wavefront run -/

theorem wrun_ground {g : Pos} (hg : inBounds g) :
    ∀ k (p : Pos), (run (wEvs g) (k + 1)).ground p = decide (p = g) := by
  intro k
  induction k with
  | zero =>
      intro p
      show (frame (wEvs g 0) startState).ground p = decide (p = g)
      rw [frame_ground]
      show (applyEvent startState (Event.paint g)).ground p = decide (p = g)
      show (if p = g ∧ inBounds p then true else startState.ground p) = _
      by_cases hpg : p = g
      · rw [if_pos ⟨hpg, hpg ▸ hg⟩, hpg]
        simp
      · rw [if_neg (fun hc => hpg hc.1), startState_ground]
        simp [hpg]
  | succ k ih =>
      intro p
      show (frame (wEvs g (k + 1)) (run (wEvs g) (k + 1))).ground p = _
      rw [frame_ground]
      show (applyEvents [] (run (wEvs g) (k + 1))).ground p = _
      rw [applyEvents_nil]
      exact ih p

theorem wave_inv {g : Pos} (hg : inBounds g) :
    ∀ k, ∀ c, inBounds c →
      ((run (wEvs g) (k + 1)).nearest_ground c =
        if distLEb g c k = true then g else c) ∧
      ((run (wEvs g) (k + 1)).valid c = distLEb g c k) := by
  intro k
  induction k with
  | zero =>
      intro c hc
      have hvall : ∀ q, (applyEvents (wEvs g 0) startState).valid q = false := by
        intro q
        rw [applyEvents_valid]
        exact startState_valid q
      have hcell :
          propegateCell (applyEvents (wEvs g 0) startState) c =
            ((applyEvents (wEvs g 0) startState).nearest_ground c,
             (applyEvents (wEvs g 0) startState).nearest_ground_finder c) :=
        propegateCell_of_invalid (fun n _ => hvall n) (hvall c)
      have hng :
          (run (wEvs g) 1).nearest_ground c = c := by
        show (frame (wEvs g 0) startState).nearest_ground c = c
        rw [frame_ng _ _ hc, hcell]
        show (applyEvents (wEvs g 0) startState).nearest_ground c = c
        rw [applyEvents_ng]
        exact startState_ng c
      constructor
      · rw [hng, distLEb_zero]
        by_cases hpg : c = g
        · simp [hpg]
        · simp [hpg]
      · show (frame (wEvs g 0) startState).valid c = _
        rw [frame_valid _ _ hc, hcell]
        show (applyEvents (wEvs g 0) startState).ground
          ((applyEvents (wEvs g 0) startState).nearest_ground c) = _
        rw [applyEvents_ng, startState_ng c, distLEb_zero]
        exact wrun_ground hg 0 c
  | succ k ih =>
      intro c hc
      have hevs : wEvs g (k + 1) = [] := rfl
      have hrun : run (wEvs g) (k + 2) = frame [] (run (wEvs g) (k + 1)) := by
        show frame (wEvs g (k + 1)) (run (wEvs g) (k + 1)) = _
        rw [hevs]
      have happ :
          applyEvents ([] : List Event) (run (wEvs g) (k + 1)) =
            run (wEvs g) (k + 1) := applyEvents_nil _
      have hngres :
          (propegateCell (run (wEvs g) (k + 1)) c).1 =
            if distLEb g c (k + 1) = true then g else c := by
        by_cases hd : distLEb g c (k + 1) = true
        · rw [if_pos hd]
          refine propegateCell_fst_all hc hg ?_ ?_ ?_
          · intro n hn hv
            have hihn := ih n (inBounds_of_mem_neighbors hn)
            rw [hihn.2] at hv
            rw [hihn.1, if_pos hv]
          · intro hv
            have hihc := ih c hc
            rw [hihc.2] at hv
            rw [hihc.1, if_pos hv]
          · rw [distLEb_succ] at hd
            rcases Bool.or_eq_true_iff.1 hd with hcg | hany
            · right
              have hcg' : c = g := of_decide_eq_true hcg
              rw [(ih c hc).2, hcg']
              exact distLEb_self g k
            · left
              rcases List.any_eq_true.1 hany with ⟨n, hn, hdn⟩
              exact ⟨n, hn, by rw [(ih n (inBounds_of_mem_neighbors hn)).2]; exact hdn⟩
        · rw [if_neg hd]
          have hself : (run (wEvs g) (k + 1)).valid c = false := by
            rw [(ih c hc).2]
            by_contra hne
            exact hd (distLEb_mono (Bool.of_not_eq_false hne))
          have hall : ∀ n ∈ neighbors c, (run (wEvs g) (k + 1)).valid n = false := by
            intro n hn
            rw [(ih n (inBounds_of_mem_neighbors hn)).2]
            by_contra hne
            apply hd
            rw [distLEb_succ]
            exact Bool.or_eq_true_iff.2
              (Or.inr (List.any_eq_true.2 ⟨n, hn, Bool.of_not_eq_false hne⟩))
          rw [propegateCell_of_invalid hall hself]
          have hk : distLEb g c k = false := by
            by_contra hne
            exact hd (distLEb_mono (Bool.of_not_eq_false hne))
          rw [(ih c hc).1, hk]
          simp
      constructor
      · rw [hrun, frame_ng _ _ hc, happ]
        exact hngres
      · rw [hrun, frame_valid _ _ hc, happ, hngres]
        have hgr := wrun_ground hg k
        by_cases hd : distLEb g c (k + 1) = true
        · rw [if_pos hd, hgr g, hd]
          simp
        · rw [if_neg hd, hgr c]
          have hcg : c ≠ g := by
            intro hcg
            apply hd
            rw [hcg]
            exact distLEb_self g (k + 1)
          rw [Bool.eq_iff_iff]
          simp [hcg, hd]

/-- C3: on the uniform-cost grid with exactly one source painted at frame 0
and no further edits, after frame k a cell is valid if and only if its
4-connected graph distance to the source is at most k.  Frame k of the
engine is run (wEvs g) (k + 1): painting happens at the start of frame 0
and the passes of frame 0 run in that same frame. -/
theorem wavefront_law (g c : Pos) (k : ℕ) (hg : inBounds g) (hc : inBounds c) :
    (run (wEvs g) (k + 1)).valid c = true ↔ distLEb g c k = true := by
  rw [(wave_inv hg k c hc).2]

/-- Witness for C3: with the source at the origin, after frame 1 the cell
(0,1) at graph distance 1 is valid. -/
theorem wavefront_law_witness : (run (wEvs (0, 0)) 2).valid (0, 1) = true :=
  (wavefront_law (0, 0) (0, 1) 1 (by decide) (by decide)).2 (by decide)

/-! ### The discharge pass: inflow bounds and staged-charge arithmetic -/

theorem card_cells : cells.card = 65536 := by
  unfold cells GRID_SIZE
  rw [Finset.card_product, Int.card_Icc]
  decide

set_option maxRecDepth 4096 in
theorem inflow_le_four {s : State}
    (hngf : ∀ d, inBounds d →
      (s.nearest_ground_finder d = d ∨ s.nearest_ground_finder d ∈ neighbors d))
    (p : Pos) : inflow s p ≤ 4 := by
  unfold inflow
  have hsub : (cells.filter fun d => sendsTo s d p) ⊆ (neighbors p).toFinset := by
    intro e he
    rcases Finset.mem_filter.1 he with ⟨hec, hsend⟩
    have hbe : inBounds e := mem_cells.1 hec
    rcases hngf e hbe with h | h
    · exact absurd h hsend.2.2.2.1
    · have hp' : p ∈ neighbors e := hsend.2.2.2.2.1 ▸ h
      exact List.mem_toFinset.2 (neighbors_symm hbe hp')
  calc (cells.filter fun d => sendsTo s d p).card
      ≤ (neighbors p).toFinset.card := Finset.card_le_card hsub
    _ ≤ (neighbors p).length := (neighbors p).toFinset_card_le
    _ ≤ 4 := length_neighbors_le p

theorem inflow_eq_zero_of_full {s : State} {p : Pos}
    (h : MAX_CHARGE ≤ s.charge p) : inflow s p = 0 := by
  unfold inflow
  rw [Finset.card_eq_zero, Finset.filter_eq_empty_iff]
  exact fun e _ hsend => absurd hsend.2.2.2.2.2 (not_lt.2 h)

theorem inflow_le_total (s : State) (p : Pos) : inflow s p ≤ 65536 := by
  unfold inflow
  calc (cells.filter fun d => sendsTo s d p).card
      ≤ cells.card := Finset.card_filter_le _ _
    _ = 65536 := card_cells

theorem stagedCharge_eq {s : State} {p : Pos}
    (hsmall : s.next_charge p + inflow s p < u32Mod)
    (hpos : dischargeSends s p → 1 ≤ s.next_charge p) :
    stagedCharge s p =
      s.next_charge p + inflow s p - (if dischargeSends s p then 1 else 0) := by
  unfold stagedCharge
  unfold u32Mod at hsmall ⊢
  split_ifs with h
  · have h1 := hpos h
    omega
  · omega

/-! ### Zero-charge states -/

theorem allZero_start : AllZero startState := fun _ => ⟨rfl, rfl⟩

theorem not_dischargeSends_of_zero {s : State} (h : AllZero s) (p : Pos) :
    ¬ dischargeSends s p := fun hs => hs.1 (h p).1

theorem inflow_zero_of_allZero {s : State} (h : AllZero s) (p : Pos) :
    inflow s p = 0 := by
  unfold inflow
  rw [Finset.card_eq_zero, Finset.filter_eq_empty_iff]
  exact fun e _ hsend => hsend.1 (h e).1

theorem stagedCharge_zero {s : State} (h : AllZero s) (p : Pos) :
    stagedCharge s p = 0 := by
  unfold stagedCharge
  rw [if_neg (not_dischargeSends_of_zero h p), inflow_zero_of_allZero h p,
    (h p).2]
  rfl

theorem allZero_applyEvents_paint {s : State} (h : AllZero s) (q : Pos) :
    AllZero (applyEvents [Event.paint q] s) := h

theorem allZero_frame {s : State} {evs : List Event} (h : AllZero s)
    (hevs : evs = [] ∨ ∃ q, evs = [Event.paint q]) : AllZero (frame evs s) := by
  have h1 : AllZero (applyEvents evs s) := by
    rcases hevs with rfl | ⟨q, rfl⟩
    · exact h
    · exact h
  have h3 : AllZero (update_valid (propegate_nearest (applyEvents evs s))) := h1
  intro p
  constructor
  · show (copy_charge (discharge _)).charge p = 0
    rw [copy_charge_charge]
    split_ifs with hp
    · rw [discharge_next, if_pos hp]
      exact stagedCharge_zero h3 p
    · rw [discharge_charge]
      exact (h1 p).1
  · show (copy_charge (discharge _)).next_charge p = 0
    rw [copy_charge_next, discharge_next]
    split_ifs with hp
    · exact stagedCharge_zero h3 p
    · exact (h1 p).2

/-! ### The reachable charge invariant -/

theorem chargeInv_start : ChargeInv startState := by
  intro p hp
  refine ⟨?_, ?_, Or.inl (startState_ngf p)⟩
  · rw [startState_charge]
    exact Nat.zero_le _
  · rw [startState_charge, startState_next]

theorem chargeInv_applyEvent {s : State} {e : Event} (hs : ChargeInv s)
    (he : EventOK e) : ChargeInv (applyEvent s e) := by
  cases e with
  | paint q => exact hs
  | inject q a =>
      intro p hp
      refine ⟨?_, ?_, ?_⟩
      · show (if p = q ∧ inBounds p then a else s.charge p) ≤ MAX_CHARGE + 3
        split_ifs with hc
        · exact le_trans he (by omega)
        · exact (hs p hp).1
      · show (if p = q ∧ inBounds p then a else s.next_charge p) =
          (if p = q ∧ inBounds p then a else s.charge p)
        split_ifs with hc
        · rfl
        · exact (hs p hp).2.1
      · exact (hs p hp).2.2

theorem chargeInv_applyEvents {s : State} {evs : List Event} (hs : ChargeInv s)
    (hoks : ∀ e ∈ evs, EventOK e) : ChargeInv (applyEvents evs s) := by
  induction evs generalizing s with
  | nil => exact hs
  | cons e evs ih =>
      rw [applyEvents_cons]
      exact ih (chargeInv_applyEvent hs (hoks e (List.mem_cons_self e evs)))
        fun e' he' => hoks e' (List.mem_cons_of_mem e he')

theorem chargeInv_frame {s : State} {evs : List Event} (hs : ChargeInv s)
    (hoks : ∀ e ∈ evs, EventOK e) : ChargeInv (frame evs s) := by
  have h1 : ChargeInv (applyEvents evs s) := chargeInv_applyEvents hs hoks
  have h3ngf : ∀ d, inBounds d →
      ((update_valid (propegate_nearest (applyEvents evs s))).nearest_ground_finder d = d ∨
        (update_valid (propegate_nearest (applyEvents evs s))).nearest_ground_finder d ∈
          neighbors d) := by
    intro d hd
    rw [update_valid_ngf, propegate_ngf, if_pos hd]
    rcases (propegateCell_mem (applyEvents evs s) d).2 with h | h
    · rw [h, applyEvents_ngf]
      have := (h1 d hd).2.2
      rw [applyEvents_ngf] at this
      exact this
    · exact Or.inr h
  have h3charge : ∀ p, (update_valid (propegate_nearest (applyEvents evs s))).charge p =
      (applyEvents evs s).charge p := fun p => rfl
  have h3next : ∀ p, (update_valid (propegate_nearest (applyEvents evs s))).next_charge p =
      (applyEvents evs s).next_charge p := fun p => rfl
  intro p hp
  have hstaged :
      stagedCharge (update_valid (propegate_nearest (applyEvents evs s))) p ≤
        MAX_CHARGE + 3 := by
    have hnv : (update_valid (propegate_nearest (applyEvents evs s))).next_charge p =
        (applyEvents evs s).charge p := by
      rw [h3next p]
      exact (h1 p hp).2.1
    have hsmall : (update_valid (propegate_nearest (applyEvents evs s))).next_charge p +
        inflow (update_valid (propegate_nearest (applyEvents evs s))) p < u32Mod := by
      have hb := (h1 p hp).1
      have hi := inflow_le_total (update_valid (propegate_nearest (applyEvents evs s))) p
      rw [hnv]
      unfold u32Mod
      unfold MAX_CHARGE at hb
      omega
    have hpos : dischargeSends (update_valid (propegate_nearest (applyEvents evs s))) p →
        1 ≤ (update_valid (propegate_nearest (applyEvents evs s))).next_charge p := by
      intro hsend
      have := hsend.1
      rw [h3charge p] at this
      rw [hnv]
      omega
    rw [stagedCharge_eq hsmall hpos]
    by_cases hfull : MAX_CHARGE ≤
        (update_valid (propegate_nearest (applyEvents evs s))).charge p
    · have hz := inflow_eq_zero_of_full hfull
      have hb := (h1 p hp).1
      rw [hnv, hz]
      rw [h3charge p] at hfull
      split_ifs <;> omega
    · have hi := inflow_le_four h3ngf p
      rw [h3charge p] at hfull
      unfold MAX_CHARGE at hfull
      have hb : (applyEvents evs s).charge p ≤ 15 := by omega
      rw [hnv]
      unfold MAX_CHARGE
      split_ifs <;> omega
  refine ⟨?_, ?_, ?_⟩
  · rw [frame_charge evs s hp]
    exact hstaged
  · rw [frame_next evs s hp, frame_charge evs s hp]
  · rw [frame_ngf evs s hp]
    rcases (propegateCell_mem (applyEvents evs s) p).2 with h | h
    · rw [h, applyEvents_ngf]
      have := (hs p hp).2.2
      exact this
    · exact Or.inr h

theorem chargeInv_reachable {s : State} (hs : Reachable s) : ChargeInv s := by
  induction hs with
  | start => exact chargeInv_start
  | step hr hoks ih => exact chargeInv_frame ih hoks

/-- C1 (amended): on every reachable state, i.e. at the start and end of
every frame of a run whose injected amounts are caller-clamped, the
authoritative charge of every cell lies in [0, MAX_CHARGE + 3] (it is a
natural number, so nonnegative); the bound MAX_CHARGE cannot be restored
because the commit step performs no clamp, so same-frame contention can
leave a committed value above MAX_CHARGE, up to the in-degree surplus of
3. -/
theorem charge_bounds_reachable {s : State} (hs : Reachable s) (p : Pos)
    (hp : inBounds p) : s.charge p ≤ MAX_CHARGE + 3 :=
  (chargeInv_reachable hs p hp).1

/-- Witness for the amended C1 at the start state and the origin. -/
theorem charge_bounds_reachable_witness :
    startState.charge (0, 0) ≤ MAX_CHARGE + 3 :=
  charge_bounds_reachable Reachable.start (0, 0) (by decide)

/-! ### Claim C2: same-frame contention on a shared destination -/

set_option maxRecDepth 8192 in
/-- C2: each capacity check reads the pre-frame charge of the destination,
so two distinct valid, charged, non-ground cells whose forwarding pointers
both name a third cell of pre-frame charge MAX_CHARGE - 1 both transfer in
the same frame, and the staged charge of the destination reaches
MAX_CHARGE + 1 before commit (hypotheses pin the scenario: staging agrees
with the committed charge at frame start, the destination itself does not
discharge, and no further cell sends into it). -/
theorem contention_double_transfer {s : State} {a b d : Pos}
    (hab : a ≠ b) (had : a ≠ d) (hbd : b ≠ d)
    (hba : inBounds a) (hbb : inBounds b) (hbdd : inBounds d)
    (hva : s.valid a = true) (hvb : s.valid b = true)
    (hga : s.ground a = false) (hgb : s.ground b = false)
    (hca : s.charge a ≠ 0) (hcb : s.charge b ≠ 0)
    (hfa : s.nearest_ground_finder a = d) (hfb : s.nearest_ground_finder b = d)
    (hcd : s.charge d = MAX_CHARGE - 1)
    (hnd : s.next_charge d = s.charge d)
    (hds : ¬ dischargeSends s d)
    (honly : ∀ e ∈ cells, sendsTo s e d → e = a ∨ e = b) :
    sendsTo s a d ∧ sendsTo s b d ∧
      (discharge s).next_charge d = MAX_CHARGE + 1 := by
  have hlt : s.charge d < MAX_CHARGE := by
    rw [hcd]
    decide
  have hsa : sendsTo s a d :=
    ⟨hca, hva, hga, by rw [hfa]; exact Ne.symm had, hfa, hlt⟩
  have hsb : sendsTo s b d :=
    ⟨hcb, hvb, hgb, by rw [hfb]; exact Ne.symm hbd, hfb, hlt⟩
  refine ⟨hsa, hsb, ?_⟩
  have hfilter : cells.filter (fun e => sendsTo s e d) = {a, b} := by
    apply Finset.ext
    intro e
    rw [Finset.mem_filter, Finset.mem_insert, Finset.mem_singleton]
    constructor
    · rintro ⟨hec, hsend⟩
      exact honly e hec hsend
    · rintro (rfl | rfl)
      · exact ⟨mem_cells.2 hba, hsa⟩
      · exact ⟨mem_cells.2 hbb, hsb⟩
  have hinf : inflow s d = 2 := by
    unfold inflow
    rw [hfilter, Finset.card_insert_of_not_mem (by simp [hab]),
      Finset.card_singleton]
  rw [discharge_next, if_pos hbdd]
  have hsmall : s.next_charge d + inflow s d < u32Mod := by
    rw [hnd, hcd, hinf]
    decide
  rw [stagedCharge_eq hsmall (fun h => absurd h hds), if_neg hds, hinf,
    hnd, hcd]
  decide

set_option maxRecDepth 8192 in
/-- Witness for C2: in stC2, cells (0,1) and (1,0) both forward into
(1,1), which holds 15 units; the staged value reaches 17. -/
theorem contention_double_transfer_witness :
    sendsTo stC2 (0, 1) (1, 1) ∧ sendsTo stC2 (1, 0) (1, 1) ∧
      (discharge stC2).next_charge (1, 1) = MAX_CHARGE + 1 := by
  refine contention_double_transfer (by decide) (by decide) (by decide)
    (by decide) (by decide) (by decide) (by decide) (by decide) (by decide)
    (by decide) (by decide) (by decide) (by decide) (by decide) (by decide)
    (by decide) (by decide) ?_
  intro e he hsend
  by_cases h1 : e = (0, 1) ∨ e = (1, 0)
  · exact h1
  · exfalso
    by_cases h2 : e = (1, 1)
    · apply hsend.2.2.2.1
      subst h2
      show (if ((1, 1) : Pos) = (0, 1) ∨ ((1, 1) : Pos) = (1, 0)
        then ((1, 1) : Pos) else (1, 1)) = (1, 1)
      split_ifs <;> rfl
    · apply hsend.1
      show (if e = (0, 1) ∨ e = (1, 0) then 1
        else if e = (1, 1) then 15 else 0) = 0
      rw [if_neg h1, if_neg h2]

/-! ### Claim C8: a full destination blocks the transfer -/

set_option maxRecDepth 8192 in
/-- C8: a valid non-ground cell with charge 3 whose forwarding pointer
names a neighbor whose pre-frame charge is already MAX_CHARGE does not
transfer that frame, and (in the otherwise quiet scenario: nothing sends
into the cell, the full neighbor does not itself discharge, and staging
agrees with the committed charge) both committed charges are unchanged at
the end of the frame. -/
theorem capacity_blocks_transfer {s : State} {a n : Pos}
    (hba : inBounds a) (hn : n ∈ neighbors a)
    (hva : s.valid a = true) (hga : s.ground a = false)
    (hca : s.charge a = 3)
    (hfa : s.nearest_ground_finder a = n)
    (hcn : s.charge n = MAX_CHARGE)
    (hna : s.next_charge a = s.charge a) (hnn : s.next_charge n = s.charge n)
    (hquiet : ∀ e ∈ cells, ¬ sendsTo s e a)
    (hnsend : ¬ dischargeSends s n) :
    ¬ sendsTo s a n ∧
      (copy_charge (discharge s)).charge a = 3 ∧
      (copy_charge (discharge s)).charge n = MAX_CHARGE := by
  have hbn : inBounds n := inBounds_of_mem_neighbors hn
  have hnotfull : ¬ s.charge n < MAX_CHARGE := by
    rw [hcn]
    exact lt_irrefl _
  have hasend : ¬ dischargeSends s a := by
    rintro ⟨-, -, hgr | ⟨-, hlt⟩⟩
    · rw [hga] at hgr
      exact Bool.false_ne_true hgr
    · rw [hfa] at hlt
      exact hnotfull hlt
  have hinfa : inflow s a = 0 := by
    unfold inflow
    rw [Finset.card_eq_zero, Finset.filter_eq_empty_iff]
    exact hquiet
  have hinfn : inflow s n = 0 :=
    inflow_eq_zero_of_full (le_of_eq hcn.symm)
  refine ⟨fun hs => hnotfull hs.2.2.2.2.2, ?_, ?_⟩
  · rw [copy_charge_charge, if_pos hba, discharge_next, if_pos hba]
    have hsmall : s.next_charge a + inflow s a < u32Mod := by
      rw [hna, hca, hinfa]
      decide
    rw [stagedCharge_eq hsmall (fun h => absurd h hasend), if_neg hasend,
      hinfa, hna, hca]
  · rw [copy_charge_charge, if_pos hbn, discharge_next, if_pos hbn]
    have hsmall : s.next_charge n + inflow s n < u32Mod := by
      rw [hnn, hcn, hinfn]
      decide
    rw [stagedCharge_eq hsmall (fun h => absurd h hnsend), if_neg hnsend,
      hinfn, hnn, hcn]
    omega

set_option maxRecDepth 8192 in
/-- Witness for C8: in stC8 the cell (1,1) holds 3 units and forwards to
its full neighbor (1,2); both keep their charge through the frame. -/
theorem capacity_blocks_transfer_witness :
    ¬ sendsTo stC8 (1, 1) (1, 2) ∧
      (copy_charge (discharge stC8)).charge (1, 1) = 3 ∧
      (copy_charge (discharge stC8)).charge (1, 2) = MAX_CHARGE := by
  refine capacity_blocks_transfer (by decide) (by decide) (by decide)
    (by decide) (by decide) (by decide) (by decide) (by decide) (by decide)
    ?_ (by decide)
  intro e he hsend
  by_cases h1 : e = (1, 1)
  · apply absurd hsend.2.2.2.2.1
    subst h1
    show ¬ (if ((1, 1) : Pos) = (1, 1) then ((1, 2) : Pos) else (1, 1)) = (1, 1)
    decide
  · by_cases h2 : e = (1, 2)
    · apply absurd hsend.2.1
      subst h2
      show ¬ stC8.valid (1, 2) = true
      decide
    · apply hsend.1
      show (if e = (1, 1) then 3 else if e = (1, 2) then 16 else 0) = 0
      rw [if_neg h1, if_neg h2]

/-! ### Claim C10: sink absorption is a fixed decrement of one -/

/-- C10: during the transport pass, a valid ground cell with nonzero
pre-frame charge subtracts exactly one unit from its own staged charge
(so its staged value becomes charge + inflow - 1) and adds nothing to any
other cell: the absorption policy is a fixed decrement of one per frame,
not an instant clamp to zero. -/
theorem ground_absorbs_one_unit {s : State} {p : Pos}
    (hp : inBounds p) (hg : s.ground p = true) (hv : s.valid p = true)
    (hc : s.charge p ≠ 0) (hn : s.next_charge p = s.charge p)
    (hb : s.charge p ≤ MAX_CHARGE + 3) :
    (discharge s).next_charge p = s.charge p + inflow s p - 1 ∧
      ∀ q, ¬ sendsTo s p q := by
  have hsend : dischargeSends s p := ⟨hc, hv, Or.inl hg⟩
  constructor
  · rw [discharge_next, if_pos hp]
    have hsmall : s.next_charge p + inflow s p < u32Mod := by
      have hi := inflow_le_total s p
      rw [hn]
      unfold MAX_CHARGE at hb
      unfold u32Mod
      omega
    rw [stagedCharge_eq hsmall (fun _ => by rw [hn]; omega), if_pos hsend, hn]
  · intro q hs
    have hgr := hs.2.2.1
    rw [hg] at hgr
    exact Bool.noConfusion hgr

/-- Witness for C10: in stC10 the valid ground cell (2,2) holds 5 units. -/
theorem ground_absorbs_one_unit_witness :
    (discharge stC10).next_charge (2, 2) =
        stC10.charge (2, 2) + inflow stC10 (2, 2) - 1 ∧
      ∀ q, ¬ sendsTo stC10 (2, 2) q :=
  ground_absorbs_one_unit (by decide) (by decide) (by decide) (by decide)
    (by decide) (by decide)

/-! ### Claim C9: write_charge is a direct overwrite -/

/-- C9: for an in-bounds cell and a caller-clamped amount, write_charge
writes the amount into both the authoritative and the staging charge of
that cell, and changes nothing else: no other cell's charge buffers and no
other field of any cell. -/
theorem write_charge_overwrites (s : State) (pos : Pos) (a : ℕ)
    (hpos : inBounds pos) (ha : a ≤ MAX_CHARGE) :
    (applyEvent s (Event.inject pos a)).charge pos = a ∧
    (applyEvent s (Event.inject pos a)).next_charge pos = a ∧
    (∀ q, q ≠ pos →
      (applyEvent s (Event.inject pos a)).charge q = s.charge q ∧
      (applyEvent s (Event.inject pos a)).next_charge q = s.next_charge q) ∧
    (applyEvent s (Event.inject pos a)).ground = s.ground ∧
    (applyEvent s (Event.inject pos a)).valid = s.valid ∧
    (applyEvent s (Event.inject pos a)).nearest_ground = s.nearest_ground ∧
    (applyEvent s (Event.inject pos a)).nearest_ground_finder =
      s.nearest_ground_finder := by
  refine ⟨?_, ?_, ?_, rfl, rfl, rfl, rfl⟩
  · show (if pos = pos ∧ inBounds pos then a else s.charge pos) = a
    split_ifs with h
    · rfl
    · exact absurd ⟨rfl, hpos⟩ h
  · show (if pos = pos ∧ inBounds pos then a else s.next_charge pos) = a
    split_ifs with h
    · rfl
    · exact absurd ⟨rfl, hpos⟩ h
  · intro q hq
    constructor
    · show (if q = pos ∧ inBounds q then a else s.charge q) = s.charge q
      rw [if_neg fun hc => hq hc.1]
    · show (if q = pos ∧ inBounds q then a else s.next_charge q) = s.next_charge q
      rw [if_neg fun hc => hq hc.1]

/-- Witness for C9 at the zero state, the origin and amount 5. -/
theorem write_charge_overwrites_witness :
    (applyEvent zeroState (Event.inject (0, 0) 5)).charge (0, 0) = 5 ∧
    (applyEvent zeroState (Event.inject (0, 0) 5)).next_charge (0, 0) = 5 ∧
    (∀ q, q ≠ (0, 0) →
      (applyEvent zeroState (Event.inject (0, 0) 5)).charge q =
        zeroState.charge q ∧
      (applyEvent zeroState (Event.inject (0, 0) 5)).next_charge q =
        zeroState.next_charge q) ∧
    (applyEvent zeroState (Event.inject (0, 0) 5)).ground = zeroState.ground ∧
    (applyEvent zeroState (Event.inject (0, 0) 5)).valid = zeroState.valid ∧
    (applyEvent zeroState (Event.inject (0, 0) 5)).nearest_ground =
      zeroState.nearest_ground ∧
    (applyEvent zeroState (Event.inject (0, 0) 5)).nearest_ground_finder =
      zeroState.nearest_ground_finder :=
  write_charge_overwrites zeroState (0, 0) 5 (by decide) (by decide)

/-! ### Claim C6: the neighbor candidate is the neighbor distance plus one -/

/-- C6: for every valid 4-connected neighbor, the candidate distance the
propagation pass computes through that neighbor (the loop expression
sqd(nearest_ground(N), N) + 1) equals the distance value of the neighbor
itself (the self-branch expression sqd(nearest_ground(N), N)) plus the
unit edge cost. -/
theorem neighbor_candidate_distance (s : State) (p n : Pos)
    (hn : n ∈ neighbors p) (hv : s.valid n = true) :
    nbrCand s n = cellDist s n + 1 := rfl

/-- Witness for C6 in stC7 at cell (1,1) and its valid neighbor (0,1). -/
theorem neighbor_candidate_distance_witness :
    nbrCand stC7 (0, 1) = cellDist stC7 (0, 1) + 1 :=
  neighbor_candidate_distance stC7 (1, 1) (0, 1) (by decide) (by decide)

/-! ### Claim C7: stability preference and its tie behaviour -/

/-- C7 (amended): a previously valid cell keeps its forwarding pointer and
distance unchanged exactly when its previous distance is strictly smaller
than every candidate offered by a valid neighbor; on a tie the neighbor
candidate wins, replacing the forwarding pointer (the source compares with
strict less-than and runs the self check after the neighbor loop). -/
theorem stability_preference {s : State} {p : Pos}
    (hv : s.valid p = true) (hB : cellDist s p < i32MAX)
    (hstrict : ∀ n ∈ neighbors p, s.valid n = true →
      cellDist s p < nbrCand s n) :
    propegateCell s p = (s.nearest_ground p, s.nearest_ground_finder p) :=
  propegateCell_keep hv hB hstrict

/-- Witness for the amended C7: in stC5w the valid cell (0,0) has distance
0 and no valid neighbors, so the pass keeps its state. -/
theorem stability_preference_witness :
    propegateCell stC5w (0, 0) =
      (stC5w.nearest_ground (0, 0), stC5w.nearest_ground_finder (0, 0)) :=
  stability_preference (s := stC5w) (p := (0, 0)) (by decide) (by decide)
    (by decide)

/-- C7 counterexample: in stC7 the cell (0,1) is valid with previous
distance 2, no neighbor candidate is strictly smaller than 2, yet the pass
replaces its forwarding pointer (0,2) by the tying neighbor (1,1): ties
are not resolved in favor of the previous state. -/
theorem stability_tie_counterexample :
    stC7.valid (0, 1) = true ∧
    (∀ n ∈ neighbors (0, 1), stC7.valid n = true →
      ¬ nbrCand stC7 n < cellDist stC7 (0, 1)) ∧
    (propegateCell stC7 (0, 1)).2 ≠ stC7.nearest_ground_finder (0, 1) := by
  refine ⟨by decide, by decide, by decide⟩

/-! ### Claim C5: ground cells in the propagation pass -/

/-- C5 (amended): a ground cell that still records itself as its own
nearest ground and forwarding pointer, and was valid entering the pass,
ends the propagation pass (propegate_nearest then update_valid) valid with
distance 0 and forwarding pointer equal to itself.  The unconditional
claim fails: the pass has no ground-re-anchoring rule, see the
counterexample. -/
theorem ground_cell_propagation {s : State} {p : Pos}
    (hp : inBounds p) (hg : s.ground p = true)
    (hng : s.nearest_ground p = p) (hngf : s.nearest_ground_finder p = p)
    (hv : s.valid p = true) :
    (update_valid (propegate_nearest s)).valid p = true ∧
    cellDist (update_valid (propegate_nearest s)) p = 0 ∧
    (update_valid (propegate_nearest s)).nearest_ground_finder p = p := by
  have hcd : cellDist s p = 0 := by
    unfold cellDist
    rw [hng, sqd_self]
  have hkeep : propegateCell s p =
      (s.nearest_ground p, s.nearest_ground_finder p) := by
    refine propegateCell_keep hv ?_ ?_
    · rw [hcd]
      decide
    · intro n hn hvn
      rw [hcd]
      have h0 := sqd_nonneg (s.nearest_ground n) n
      unfold nbrCand
      omega
  have hngr : (update_valid (propegate_nearest s)).nearest_ground p = p := by
    rw [update_valid_ng, propegate_ng, if_pos hp, hkeep, hng]
  refine ⟨?_, ?_, ?_⟩
  · rw [update_valid_valid, if_pos hp, propegate_ground, propegate_ng,
      if_pos hp, hkeep, hng]
    exact hg
  · unfold cellDist
    rw [hngr, sqd_self]
  · rw [update_valid_ngf, propegate_ngf, if_pos hp, hkeep, hngf]

/-- Witness for the amended C5: the freshly painted self-recording ground
cell (0,0) of stC5w. -/
theorem ground_cell_propagation_witness :
    (update_valid (propegate_nearest stC5w)).valid (0, 0) = true ∧
    cellDist (update_valid (propegate_nearest stC5w)) (0, 0) = 0 ∧
    (update_valid (propegate_nearest stC5w)).nearest_ground_finder (0, 0) =
      (0, 0) :=
  ground_cell_propagation (by decide) (by decide) (by decide) (by decide)
    (by decide)

/-- C5 counterexample: in stC5 (a reachable shape: the source (0,2) was
painted first, its wavefront reached (0,0) through (0,1), then (0,0) was
painted ground), the ground cell (0,0) ends the pass valid but with
distance 4 and forwarding pointer (0,1): not distance 0 and itself,
because the pass never re-anchors ground cells. -/
theorem ground_cell_not_reanchored_counterexample :
    stC5.ground (0, 0) = true ∧
    (update_valid (propegate_nearest stC5)).valid (0, 0) = true ∧
    cellDist (update_valid (propegate_nearest stC5)) (0, 0) ≠ 0 ∧
    (update_valid (propegate_nearest stC5)).nearest_ground_finder (0, 0) ≠
      (0, 0) := by
  refine ⟨by decide, by decide, by decide, by decide⟩

/-! ### Auxiliary lemmas for the contention run -/

theorem run_valid_out (evs : ℕ → List Event) {q : Pos} (hq : ¬ inBounds q) :
    ∀ n, (run evs n).valid q = false
  | 0 => startState_valid q
  | n + 1 => by
      show (update_valid (propegate_nearest (applyEvents (evs n) (run evs n)))).valid q
        = false
      rw [update_valid_valid, if_neg hq, propegate_valid, applyEvents_valid]
      exact run_valid_out evs hq n

theorem run_ng_out (evs : ℕ → List Event) {q : Pos} (hq : ¬ inBounds q) :
    ∀ n, (run evs n).nearest_ground q = q
  | 0 => startState_ng q
  | n + 1 => by
      show (propegate_nearest (applyEvents (evs n) (run evs n))).nearest_ground q = q
      rw [propegate_ng, if_neg hq, applyEvents_ng]
      exact run_ng_out evs hq n

theorem run_congr {evs1 evs2 : ℕ → List Event} :
    ∀ n, (∀ m, m < n → evs1 m = evs2 m) → run evs1 n = run evs2 n
  | 0, _ => rfl
  | n + 1, h => by
      show frame (evs1 n) (run evs1 n) = frame (evs2 n) (run evs2 n)
      rw [h n (Nat.lt_succ_self n),
        run_congr n fun m hm => h m (Nat.lt_succ_of_lt hm)]

theorem propFold_congr {s t : State}
    (hv : ∀ q, s.valid q = t.valid q)
    (hg : ∀ q, s.nearest_ground q = t.nearest_ground q) :
    ∀ (l : List Pos) (acc : ℤ × Pos × Pos), propFold s l acc = propFold t l acc
  | [], _ => rfl
  | n :: l, acc => by
      rw [propFold_cons, propFold_cons]
      have hc : nbrCand s n = nbrCand t n := by
        unfold nbrCand
        rw [hg n]
      rw [hv n, hc, hg n]
      exact propFold_congr hv hg l _

theorem propegateCell_congr {s t : State} {p : Pos}
    (hv : ∀ q, s.valid q = t.valid q)
    (hg : ∀ q, s.nearest_ground q = t.nearest_ground q)
    (hf : s.nearest_ground_finder p = t.nearest_ground_finder p) :
    propegateCell s p = propegateCell t p := by
  unfold propegateCell
  have hcd : cellDist s p = cellDist t p := by
    unfold cellDist
    rw [hg p]
  rw [propFold_congr hv hg, hv p, hcd, hg p, hf]

theorem cex_run3 : run cexEvs 3 = run (wEvs (0, 0)) 3 := by
  apply run_congr
  intro m hm
  rcases m with _ | _ | _ | m
  · rfl
  · rfl
  · rfl
  · omega

theorem cex3_ground (q : Pos) :
    (applyEvents (cexEvs 3) (run cexEvs 3)).ground q = decide (q = (0, 0)) := by
  show (run cexEvs 3).ground q = _
  rw [cex_run3]
  exact wrun_ground (by decide) 2 q

theorem cex3_valid_eq (q : Pos) :
    (applyEvents (cexEvs 3) (run cexEvs 3)).valid q = cexMid.valid q := by
  rw [applyEvents_valid, cex_run3]
  show _ = (decide (inBounds q) && distLEb (0, 0) q 2)
  by_cases hq : inBounds q
  · rw [(wave_inv (by decide) 2 q hq).2]
    simp [hq]
  · rw [run_valid_out (wEvs (0, 0)) hq 3]
    simp [hq]

theorem cex3_ng_eq (q : Pos) :
    (applyEvents (cexEvs 3) (run cexEvs 3)).nearest_ground q =
      cexMid.nearest_ground q := by
  rw [applyEvents_ng, cex_run3]
  show _ = if inBounds q ∧ distLEb (0, 0) q 2 = true then (0, 0) else q
  by_cases hq : inBounds q
  · rw [(wave_inv (by decide) 2 q hq).1]
    by_cases hd : distLEb (0, 0) q 2 = true
    · rw [if_pos hd,
        if_pos (show inBounds q ∧ distLEb (0, 0) q 2 = true from ⟨hq, hd⟩)]
    · rw [if_neg hd, if_neg fun hc => hd hc.2]
  · rw [run_ng_out (wEvs (0, 0)) hq 3, if_neg fun hc => hq hc.1]

theorem cexCell (c : Pos) :
    propegateCell (applyEvents (cexEvs 3) (run cexEvs 3)) c =
      propegateCell cexMid c :=
  propegateCell_congr cex3_valid_eq cex3_ng_eq rfl

theorem cex3_allZero : AllZero (run cexEvs 3) :=
  allZero_frame
    (allZero_frame
      (allZero_frame allZero_start (Or.inr ⟨(0, 0), rfl⟩))
      (Or.inl rfl))
    (Or.inl rfl)

theorem cex_inj_charge (s : State) (e : Pos) :
    (applyEvents (cexEvs 3) s).charge e =
      if e = (0, 1) ∧ inBounds e then 16
      else if e = (1, 0) ∧ inBounds e then 16
      else if e = (1, 2) ∧ inBounds e then 1
      else if e = (2, 1) ∧ inBounds e then 1
      else if e = (1, 1) ∧ inBounds e then 15
      else s.charge e := rfl

theorem cex_charge_support {e : Pos}
    (h : (applyEvents (cexEvs 3) (run cexEvs 3)).charge e ≠ 0) :
    e = (0, 1) ∨ e = (1, 0) ∨ e = (1, 2) ∨ e = (2, 1) ∨ e = (1, 1) := by
  rw [cex_inj_charge] at h
  split_ifs at h with h1 h2 h3 h4 h5
  · exact Or.inl h1.1
  · exact Or.inr (Or.inl h2.1)
  · exact Or.inr (Or.inr (Or.inl h3.1))
  · exact Or.inr (Or.inr (Or.inr (Or.inl h4.1)))
  · exact Or.inr (Or.inr (Or.inr (Or.inr h5.1)))
  · exact absurd (cex3_allZero e).1 h

/-! ### The fields of cexStar at the cells of interest -/

theorem cexStar_ngf21 : cexStar.nearest_ground_finder (2, 1) = (1, 1) := by
  show (update_valid (propegate_nearest _)).nearest_ground_finder (2, 1) = _
  rw [update_valid_ngf, propegate_ngf, if_pos (by decide : inBounds ((2 : ℤ), (1 : ℤ))),
    cexCell]
  decide

theorem cexStar_ngf12 : cexStar.nearest_ground_finder (1, 2) = (1, 1) := by
  show (update_valid (propegate_nearest _)).nearest_ground_finder (1, 2) = _
  rw [update_valid_ngf, propegate_ngf, if_pos (by decide : inBounds ((1 : ℤ), (2 : ℤ))),
    cexCell]
  decide

theorem cexStar_ngf11 : cexStar.nearest_ground_finder (1, 1) = (0, 1) := by
  show (update_valid (propegate_nearest _)).nearest_ground_finder (1, 1) = _
  rw [update_valid_ngf, propegate_ngf, if_pos (by decide : inBounds ((1 : ℤ), (1 : ℤ))),
    cexCell]
  decide

theorem cexStar_ngf10 : cexStar.nearest_ground_finder (1, 0) = (0, 0) := by
  show (update_valid (propegate_nearest _)).nearest_ground_finder (1, 0) = _
  rw [update_valid_ngf, propegate_ngf, if_pos (by decide : inBounds ((1 : ℤ), (0 : ℤ))),
    cexCell]
  decide

theorem cexStar_ngf01 : cexStar.nearest_ground_finder (0, 1) = (0, 0) := by
  show (update_valid (propegate_nearest _)).nearest_ground_finder (0, 1) = _
  rw [update_valid_ngf, propegate_ngf, if_pos (by decide : inBounds ((0 : ℤ), (1 : ℤ))),
    cexCell]
  decide

theorem cexStar_valid (c : Pos) (hc : inBounds c) :
    cexStar.valid c =
      decide ((propegateCell cexMid c).1 = (0, 0)) := by
  show (update_valid (propegate_nearest _)).valid c = _
  rw [update_valid_valid, if_pos hc, propegate_ground, propegate_ng, if_pos hc,
    cexCell, cex3_ground]

theorem cexStar_ground (c : Pos) :
    cexStar.ground c = decide (c = (0, 0)) := by
  show (update_valid (propegate_nearest _)).ground c = _
  rw [update_valid_ground, propegate_ground, cex3_ground]

theorem cexStar_charge (c : Pos) :
    cexStar.charge c = (applyEvents (cexEvs 3) (run cexEvs 3)).charge c := rfl

theorem cexStar_next (c : Pos) :
    cexStar.next_charge c = (applyEvents (cexEvs 3) (run cexEvs 3)).next_charge c := rfl

set_option maxRecDepth 8192 in
theorem cexStar_inflow : inflow cexStar (1, 1) = 2 := by
  unfold inflow
  have hfe : (cells.filter fun d => sendsTo cexStar d (1, 1)) = {(2, 1), (1, 2)} := by
    apply Finset.ext
    intro e
    rw [Finset.mem_filter, Finset.mem_insert, Finset.mem_singleton]
    constructor
    · rintro ⟨hec, hsend⟩
      have hch : (applyEvents (cexEvs 3) (run cexEvs 3)).charge e ≠ 0 := hsend.1
      rcases cex_charge_support hch with rfl | rfl | rfl | rfl | rfl
      · exact absurd hsend.2.2.2.2.1 (by rw [cexStar_ngf01]; decide)
      · exact absurd hsend.2.2.2.2.1 (by rw [cexStar_ngf10]; decide)
      · exact Or.inr rfl
      · exact Or.inl rfl
      · exact absurd hsend.2.2.2.2.1 (by rw [cexStar_ngf11]; decide)
    · rintro (rfl | rfl)
      · refine ⟨mem_cells.2 (by decide), ?_, ?_, ?_, ?_, ?_, ?_⟩
        · rw [cexStar_charge]
          decide
        · rw [cexStar_valid _ (by decide)]
          decide
        · rw [cexStar_ground]
          decide
        · rw [cexStar_ngf21]
          decide
        · exact cexStar_ngf21
        · rw [cexStar_charge]
          decide
      · refine ⟨mem_cells.2 (by decide), ?_, ?_, ?_, ?_, ?_, ?_⟩
        · rw [cexStar_charge]
          decide
        · rw [cexStar_valid _ (by decide)]
          decide
        · rw [cexStar_ground]
          decide
        · rw [cexStar_ngf12]
          decide
        · exact cexStar_ngf12
        · rw [cexStar_charge]
          decide
  rw [hfe, Finset.card_insert_of_not_mem (by decide), Finset.card_singleton]

theorem cexStar_no_sub : ¬ dischargeSends cexStar (1, 1) := by
  rintro ⟨-, -, hgr | ⟨-, hlt⟩⟩
  · rw [cexStar_ground] at hgr
    exact absurd hgr (by decide)
  · rw [cexStar_ngf11, cexStar_charge] at hlt
    exact absurd hlt (by decide)

/-- C1 counterexample: the contention run is reachable with caller-clamped
injections, and at the end of its frame 3 the committed authoritative
charge of cell (1,1) is 17 > MAX_CHARGE: the commit step performs no
clamping, so the claimed upper bound fails at the end of that frame. -/
theorem charge_exceeds_max_counterexample :
    Reachable cexState ∧ MAX_CHARGE < cexState.charge (1, 1) := by
  constructor
  · show Reachable (run cexEvs 4)
    have h0 : Reachable (run cexEvs 0) := Reachable.start
    have h1 : Reachable (run cexEvs 1) := Reachable.step h0 (by decide)
    have h2 : Reachable (run cexEvs 2) := Reachable.step h1 (by decide)
    have h3 : Reachable (run cexEvs 3) := Reachable.step h2 (by decide)
    exact Reachable.step h3 (by decide)
  · have hfc : cexState.charge (1, 1) = 17 := by
      show (frame (cexEvs 3) (run cexEvs 3)).charge (1, 1) = 17
      rw [frame_charge _ _ (by decide : inBounds ((1 : ℤ), (1 : ℤ)))]
      show stagedCharge cexStar (1, 1) = 17
      have hnext : cexStar.next_charge (1, 1) = 15 := by
        rw [cexStar_next]
        decide
      have hsmall : cexStar.next_charge (1, 1) + inflow cexStar (1, 1) < u32Mod := by
        rw [hnext, cexStar_inflow]
        decide
      rw [stagedCharge_eq hsmall (fun h => absurd h cexStar_no_sub),
        if_neg cexStar_no_sub, cexStar_inflow, hnext]
    rw [hfc]
    decide

end LimboLightning
